import Mathlib

/-!
Verification development for the prestate tracer
(`core/lib/multivm/src/tracers/prestate_tracer/mod.rs`).

Shallow embedding conventions:
* 160-bit addresses (`H160`), 256-bit hashes (`H256`) and 256-bit integers
  (`U256`) are embedded as `Nat`; the tracer never performs arithmetic on
  them, so no modular reduction arises.
* Rust `HashMap`s are embedded as association lists (`List (k × v)`), with
  the `HashMap` invariant of pairwise-distinct keys stated as a `nodupKeys`
  hypothesis where a proof needs it.  Building a `HashMap` from an iterator
  (`collect`) is embedded as `collectMap`, folding a replace-or-append
  insertion, so that a later pair with an already-present key overwrites the
  earlier one, exactly as `HashMap::insert` does.
* The helpers the tracer imports from other crates of the repository
  (`zksync_types`, `zksync_utils`) are not under `src/`; they are either
  value-preserving conversions (embedded as such) or are kept abstract as
  fields of `ExternalFns`, over which every theorem quantifies.
-/

/-- The `H160` address type, embedded as a natural number. -/
abbrev Address : Type := Nat

/-- The `H256` hash type, embedded as a natural number. -/
abbrev H256 : Type := Nat

/-- The `U256` integer type, embedded as a natural number. -/
abbrev U256 : Type := Nat

/-- In `zksync_types`, `StorageValue` is an alias for `H256`. -/
abbrev StorageValue : Type := H256

/-- Models `zksync_types::AccountTreeId`: a wrapper around the owning account's address. -/
structure AccountTreeId where
  address : Address
  deriving DecidableEq, Repr

/-- Models `AccountTreeId::new`. -/
def AccountTreeId.new (address : Address) : AccountTreeId := ⟨address⟩

/-- Models `zksync_types::StorageKey`: a pair of owning account and 256-bit slot. -/
structure StorageKey where
  account : AccountTreeId
  key : H256
  deriving DecidableEq, Repr

/-- Models `StorageKey::new`. -/
def StorageKey.new (account : AccountTreeId) (key : H256) : StorageKey :=
  ⟨account, key⟩

/-- The tracer's `Account` record (`mod.rs`, lines 16-22): four optional
fields; `storage` is a `HashMap<H256, H256>`, embedded as an association
list. -/
structure Account where
  balance : Option U256
  code : Option U256
  nonce : Option U256
  storage : Option (List (H256 × H256))
  deriving DecidableEq, Repr

/-! ### Association-list model of `HashMap` -/

/-- Lookup in an association list: the value of the first pair whose key
matches.  Models `HashMap` lookup (keys are unique in a real `HashMap`). -/
def lookupMap {α β : Type} [DecidableEq α] : List (α × β) → α → Option β
  | [], _ => none
  | p :: rest, k => if p.1 = k then some p.2 else lookupMap rest k

/-- Models `HashMap::contains_key`. -/
def containsKey {α β : Type} [DecidableEq α] (m : List (α × β)) (k : α) : Bool :=
  m.any (fun p => decide (p.1 = k))

/-- Models `HashMap::insert`: replace the value if the key is present, otherwise
add the pair. -/
def hashMapInsert {α β : Type} [DecidableEq α] (m : List (α × β)) (k : α) (v : β) :
    List (α × β) :=
  if containsKey m k then m.map (fun p => if p.1 = k then (k, v) else p)
  else m ++ [(k, v)]

/-- Models `Iterator::collect::<HashMap<_, _>>()`: fold the pairs into an initially
empty map; a later pair with the same key overwrites an earlier one. -/
def collectMap {α β : Type} [DecidableEq α] (l : List (α × β)) : List (α × β) :=
  l.foldl (fun m p => hashMapInsert m p.1 p.2) []

/-- The `HashMap` representation invariant: keys are pairwise distinct. -/
def nodupKeys {α β : Type} (m : List (α × β)) : Prop :=
  (m.map Prod.fst).Nodup

/-! ### Tracer state and storage handle -/

/-- Models `type State = HashMap<Address, Account>` (`mod.rs`, line 47). -/
abbrev State : Type := List (Address × Account)

/-- The storage handle (`StoragePtr<S: WriteStorage>`), reduced to the two
operations the tracer uses: `modified_storage_keys()` (a
`HashMap<StorageKey, StorageValue>`) and `read_value(&key)` (total: an
unwritten key reads as zero, so it is a plain function). -/
structure Storage where
  modified_storage_keys : List (StorageKey × StorageValue)
  read_value : StorageKey → StorageValue

/-- Modelled from the spec: the helpers the tracer imports from
`zksync_types` / the `web3` crate, whose sources are not under `src/`:
`keccak256` (the Keccak-256 hash over a byte slice), `get_code_key` and
`get_nonce_key` (deterministic per-address storage keys, the nonce key
distinct from the code key).  They are kept fully abstract; every theorem
quantifies over them. -/
structure ExternalFns where
  keccak256 : List Nat → H256
  get_code_key : Address → StorageKey
  get_nonce_key : Address → StorageKey

/-- Models `zksync_utils::h256_to_u256`: value-preserving conversion; the identity
in this embedding since both sides are `Nat`. -/
def h256_to_u256 (h : H256) : U256 := h

/-- Models `zksync_utils::address_to_h256`: left-pad a 20-byte address into 32
bytes; value-preserving, hence the identity in this embedding. -/
def address_to_h256 (a : Address) : H256 := a

/-- Models `H256::as_bytes`: the 32 bytes of a 256-bit value, big-endian. -/
def h256ToBytes (h : H256) : List Nat :=
  (List.range 32).map (fun i => h / 256 ^ (31 - i) % 256)

/-- Modelled from the spec: the fixed system ledger address
(`zksync_types::L2_ETH_TOKEN_ADDRESS`, not under `src/`); the concrete
value is irrelevant to every claim. -/
def L2_ETH_TOKEN_ADDRESS : Address := 0x800a

/-- Models `get_balance_key` (`mod.rs`, lines 114-119): hash the address (as a
256-bit value) concatenated with 32 zero bytes, and use the digest as a
slot of the system ledger account. -/
def get_balance_key (E : ExternalFns) (account : AccountTreeId) : StorageKey :=
  let address_h256 := address_to_h256 account.address
  let bytes := h256ToBytes address_h256 ++ List.replicate 32 0
  let balance_key : H256 := E.keccak256 bytes
  StorageKey.new (AccountTreeId.new L2_ETH_TOKEN_ADDRESS) balance_key

/-- Models `get_storage_if_present` (`mod.rs`, lines 121-131): keep the modified
entries owned by `account`, keyed by slot. -/
def get_storage_if_present (account : AccountTreeId)
    (modified_storage_keys : List (StorageKey × StorageValue)) :
    List (H256 × H256) :=
  collectMap
    ((modified_storage_keys.filter (fun p => decide (p.1.account = account))).map
      (fun p => (p.1.key, p.2)))

/-- The `Account` record built for a fresh address inside the closure of
`process_modified_storage_keys` (`mod.rs`, lines 94-108): all four fields
read back from the post-execution storage view. -/
def newAccountFor (E : ExternalFns) (storage : Storage) (a : AccountTreeId) : Account :=
  { balance := some (h256_to_u256 (storage.read_value (get_balance_key E a)))
    code := some (h256_to_u256 (storage.read_value (E.get_code_key a.address)))
    nonce := some (h256_to_u256 (storage.read_value (E.get_nonce_key a.address)))
    storage := some (get_storage_if_present a storage.modified_storage_keys) }

/-- Models `process_modified_storage_keys` (`mod.rs`, lines 74-112): take the
modified keys, drop those whose owner is already in `prestate`, and build
an `Account` per remaining key, collected into a map keyed by owner
address. -/
def process_modified_storage_keys (E : ExternalFns) (prestate : State)
    (storage : Storage) : State :=
  collectMap
    (((storage.modified_storage_keys.map Prod.fst).filter
        (fun k => !(containsKey prestate k.account.address))).map
      (fun k => (k.account.address, newAccountFor E storage k.account)))

/-! ### Textual rendering (`impl fmt::Display for Account`, lines 24-45) -/

/-- Rust `write!("{:x}", u)` on a `U256`: minimal-width lowercase
hexadecimal. -/
def u256LowerHex (n : U256) : String := String.mk (Nat.toDigits 16 n)

/-- Rust `write!("{}", u)` on a `U256`: decimal. -/
def u256Display (n : U256) : String := toString n

/-- One byte as two lowercase hexadecimal digits (`{:02x}`). -/
def byteHex (b : Nat) : String :=
  String.mk [Nat.digitChar (b / 16 % 16), Nat.digitChar (b % 16)]

/-- Rust `write!("{}", h)` on an `H256` (`fixed-hash` crate): `0x`, the
first two bytes, an ellipsis, the last two bytes. -/
def h256Display (h : H256) : String :=
  "0x" ++ byteHex (h / 256 ^ 31 % 256) ++ byteHex (h / 256 ^ 30 % 256) ++ "…"
    ++ byteHex (h / 256 % 256) ++ byteHex (h % 256)

/-- Models `Account::fmt` (`mod.rs`, lines 24-45), producing the full string that
the sequence of `writeln!` calls writes to the formatter. -/
def accountDisplay (a : Account) : String :=
  "\x7b\n"
    ++ (match a.balance with
        | some balance => "  balance: \"0x" ++ u256LowerHex balance ++ "\",\n"
        | none => "")
    ++ (match a.code with
        | some code => "  code: \"" ++ u256Display code ++ "\",\n"
        | none => "")
    ++ (match a.nonce with
        | some nonce => "  nonce: " ++ u256Display nonce ++ ",\n"
        | none => "")
    ++ (match a.storage with
        | some storage =>
            "  storage: \x7b\n"
              ++ String.join (storage.map
                  (fun p => "    " ++ h256Display p.1 ++ ": \"" ++ h256Display p.2 ++ "\",\n"))
              ++ "  \x7d\n"
        | none => "")
    ++ "\x7d\n"

/-- What the renderer contributes for the `balance` field alone. -/
def balancePart : Option U256 → String
  | some balance => "  balance: \"0x" ++ u256LowerHex balance ++ "\",\n"
  | none => ""

/-- What the renderer contributes for the `code` field alone. -/
def codePart : Option U256 → String
  | some code => "  code: \"" ++ u256Display code ++ "\",\n"
  | none => ""

/-- What the renderer contributes for the `nonce` field alone. -/
def noncePart : Option U256 → String
  | some nonce => "  nonce: " ++ u256Display nonce ++ ",\n"
  | none => ""

/-- What the renderer contributes for the `storage` field alone. -/
def storagePart : Option (List (H256 × H256)) → String
  | some storage =>
      "  storage: \x7b\n"
        ++ String.join (storage.map
            (fun p => "    " ++ h256Display p.1 ++ ": \"" ++ h256Display p.2 ++ "\",\n"))
        ++ "  \x7d\n"
  | none => ""

/-- Substring test on character lists (used to state what a rendering does
not contain). -/
def containsSub (hay pat : List Char) : Bool :=
  hay.tails.any (fun t => pat.isPrefixOf t)

/-! ### The write-once result holder -/

/-- Modelled from the spec: the shared write-once result container
(`once_cell::sync::OnceCell`, an external crate): a cell that is either
empty or holds a value. -/
def OnceCell (α : Type) : Type := Option α

/-- Modelled from the spec: a fresh, unpopulated cell. -/
def OnceCell.new {α : Type} : OnceCell α := none

/-- Modelled from the spec: reading the cell; an unpopulated cell yields
`none` ("not yet available"), never a default value. -/
def OnceCell.get {α : Type} (c : OnceCell α) : Option α := c

/-- Modelled from the spec: attempting to populate the cell.  Returns the
cell afterwards together with `true` when the write was accepted; a second
write is rejected (`false`) and leaves the stored value unchanged. -/
def OnceCell.trySet {α : Type} (c : OnceCell α) (v : α) : OnceCell α × Bool :=
  match c with
  | none => (some v, true)
  | some w => (some w, false)

/-- Models `PrestateTracerConfig` (`mod.rs`, lines 69-72). -/
structure PrestateTracerConfig where
  diff_mode : Bool

/-- Models `PrestateTracer` (`mod.rs`, lines 49-55); the `Arc` shared-ownership
wrapper around the result cell has no in-memory-semantics content and is
dropped. -/
structure PrestateTracer where
  pre : State
  post : State
  config : PrestateTracerConfig
  result : OnceCell (State × State)

/-- Models `PrestateTracer::new` (`mod.rs`, lines 59-66). -/
def PrestateTracer.new (diff_mode : Bool) (result : OnceCell (State × State)) :
    PrestateTracer :=
  { pre := [], post := [], config := { diff_mode := diff_mode }, result := result }

/-! ### Lemmas about the association-list map model -/

theorem lookupMap_append {α β : Type} [DecidableEq α] (l₁ l₂ : List (α × β)) (k : α) :
    lookupMap (l₁ ++ l₂) k =
      (match lookupMap l₁ k with
       | some v => some v
       | none => lookupMap l₂ k) := by
  induction l₁ with
  | nil => simp [lookupMap]
  | cons p rest ih =>
      by_cases h : p.1 = k
      · simp [lookupMap, h]
      · simp [lookupMap, h, ih]

theorem lookupMap_eq_none_iff {α β : Type} [DecidableEq α] (m : List (α × β)) (k : α) :
    lookupMap m k = none ↔ ∀ p ∈ m, p.1 ≠ k := by
  induction m with
  | nil => simp [lookupMap]
  | cons p rest ih =>
      by_cases h : p.1 = k
      · simp [lookupMap, h]
      · simp [lookupMap, h, ih]

theorem containsKey_eq_false_iff {α β : Type} [DecidableEq α] (m : List (α × β)) (k : α) :
    containsKey m k = false ↔ ∀ p ∈ m, p.1 ≠ k := by
  simp [containsKey]

theorem lookupMap_map_ne {α β : Type} [DecidableEq α] (m : List (α × β)) (k k' : α)
    (v : β) (h : k' ≠ k) :
    lookupMap (m.map (fun p => if p.1 = k then (k, v) else p)) k' = lookupMap m k' := by
  induction m with
  | nil => rfl
  | cons p rest ih =>
      by_cases hp : p.1 = k
      · simp [lookupMap, hp, Ne.symm h, ih]
      · by_cases hk : p.1 = k'
        · simp [lookupMap, hp, hk, h]
        · simp [lookupMap, hp, hk, ih]

theorem lookupMap_map_self {α β : Type} [DecidableEq α] (m : List (α × β)) (k : α)
    (v : β) (h : containsKey m k = true) :
    lookupMap (m.map (fun p => if p.1 = k then (k, v) else p)) k = some v := by
  induction m with
  | nil => simp [containsKey] at h
  | cons p rest ih =>
      by_cases hp : p.1 = k
      · simp [lookupMap, hp]
      · have h' : containsKey rest k = true := by
          simp [containsKey, hp] at h ⊢
          exact h
        simp [lookupMap, hp, ih h']

theorem lookupMap_hashMapInsert {α β : Type} [DecidableEq α] (m : List (α × β))
    (k : α) (v : β) (k' : α) :
    lookupMap (hashMapInsert m k v) k' = if k' = k then some v else lookupMap m k' := by
  unfold hashMapInsert
  by_cases hc : containsKey m k = true
  · rw [if_pos hc]
    by_cases hk : k' = k
    · rw [if_pos hk]
      subst hk
      exact lookupMap_map_self m k' v hc
    · rw [if_neg hk]
      exact lookupMap_map_ne m k k' v hk
  · rw [if_neg hc]
    rw [lookupMap_append]
    by_cases hk : k' = k
    · subst hk
      have hnone : lookupMap m k' = none := by
        rw [lookupMap_eq_none_iff]
        exact (containsKey_eq_false_iff m k').1 (by simpa using hc)
      simp [hnone, lookupMap]
    · cases hl : lookupMap m k' with
      | none => simp [lookupMap, hk, Ne.symm hk]
      | some w => simp [hk]

theorem lookupMap_foldl_insert {α β : Type} [DecidableEq α] (l m : List (α × β)) (k : α) :
    lookupMap (l.foldl (fun acc p => hashMapInsert acc p.1 p.2) m) k =
      (match lookupMap l.reverse k with
       | some v => some v
       | none => lookupMap m k) := by
  induction l generalizing m with
  | nil => simp [lookupMap]
  | cons p rest ih =>
      rw [List.foldl_cons, ih, List.reverse_cons, lookupMap_append]
      cases h : lookupMap rest.reverse k with
      | some v => simp
      | none =>
          simp only [lookupMap_hashMapInsert]
          by_cases hk : k = p.1
          · simp [lookupMap, hk]
          · have hk' : ¬ p.1 = k := fun h => hk h.symm
            simp [lookupMap, hk, hk']

theorem lookupMap_collectMap {α β : Type} [DecidableEq α] (l : List (α × β)) (k : α) :
    lookupMap (collectMap l) k = lookupMap l.reverse k := by
  unfold collectMap
  rw [lookupMap_foldl_insert]
  cases h : lookupMap l.reverse k <;> simp [lookupMap]

theorem lookupMap_eq_some_of {α β : Type} [DecidableEq α] (l : List (α × β)) (k : α)
    (v : β) (h1 : ∀ p ∈ l, p.1 = k → p.2 = v) (h2 : ∃ p ∈ l, p.1 = k) :
    lookupMap l k = some v := by
  induction l with
  | nil =>
      rcases h2 with ⟨p, hp, _⟩
      cases hp
  | cons q rest ih =>
      by_cases hq : q.1 = k
      · simp [lookupMap, hq, h1 q (by simp) hq]
      · simp only [lookupMap, hq, if_false]
        apply ih
        · exact fun p hp hpk => h1 p (by simp [hp]) hpk
        · rcases h2 with ⟨p, hp, hpk⟩
          rcases List.mem_cons.1 hp with rfl | hp'
          · exact absurd hpk hq
          · exact ⟨p, hp', hpk⟩

theorem nodupKeys_hashMapInsert {α β : Type} [DecidableEq α] {m : List (α × β)}
    (k : α) (v : β) (h : nodupKeys m) : nodupKeys (hashMapInsert m k v) := by
  unfold hashMapInsert
  by_cases hc : containsKey m k = true
  · rw [if_pos hc]
    unfold nodupKeys at h ⊢
    have hmap : (m.map (fun p => if p.1 = k then (k, v) else p)).map Prod.fst =
        m.map Prod.fst := by
      rw [List.map_map]
      apply List.map_congr_left
      intro p _
      by_cases hp : p.1 = k <;> simp [hp]
    rw [hmap]
    exact h
  · rw [if_neg hc]
    unfold nodupKeys at h ⊢
    rw [List.map_append, List.nodup_append_comm]
    simp only [List.map_cons, List.map_nil, List.nodup_cons, List.cons_append,
      List.nil_append]
    refine ⟨?_, h⟩
    intro hmem
    rcases List.mem_map.1 hmem with ⟨p, hp, hpk⟩
    exact absurd hpk ((containsKey_eq_false_iff m k).1 (by simpa using hc) p hp)

theorem nodupKeys_collectMap {α β : Type} [DecidableEq α] (l : List (α × β)) :
    nodupKeys (collectMap l) := by
  unfold collectMap
  have inv : ∀ m : List (α × β), nodupKeys m →
      nodupKeys (l.foldl (fun acc p => hashMapInsert acc p.1 p.2) m) := by
    induction l with
    | nil => exact fun m hm => hm
    | cons p rest ih =>
        intro m hm
        exact ih (hashMapInsert m p.1 p.2) (nodupKeys_hashMapInsert p.1 p.2 hm)
  exact inv [] (by simp [nodupKeys])

theorem mem_hashMapInsert {α β : Type} [DecidableEq α] {m : List (α × β)} {k : α}
    {v : β} {q : α × β} (h : q ∈ hashMapInsert m k v) : q ∈ m ∨ q = (k, v) := by
  unfold hashMapInsert at h
  by_cases hc : containsKey m k = true
  · rw [if_pos hc] at h
    rcases List.mem_map.1 h with ⟨p, hp, hq⟩
    by_cases hpk : p.1 = k
    · right
      rw [← hq]
      simp [hpk]
    · left
      rw [← hq]
      simpa [hpk] using hp
  · rw [if_neg hc] at h
    rcases List.mem_append.1 h with h' | h'
    · exact Or.inl h'
    · exact Or.inr (by simpa using h')

theorem mem_foldl_insert {α β : Type} [DecidableEq α] (l : List (α × β)) :
    ∀ (m : List (α × β)) (q : α × β),
      q ∈ l.foldl (fun acc p => hashMapInsert acc p.1 p.2) m → q ∈ m ∨ q ∈ l := by
  induction l with
  | nil => exact fun m q hm => Or.inl hm
  | cons p rest ih =>
      intro m q hm
      rcases ih (hashMapInsert m p.1 p.2) q hm with h' | h'
      · rcases mem_hashMapInsert h' with h'' | h''
        · exact Or.inl h''
        · exact Or.inr (by simp [h''])
      · exact Or.inr (List.mem_cons.2 (Or.inr h'))

theorem mem_collectMap {α β : Type} [DecidableEq α] {l : List (α × β)} {q : α × β}
    (h : q ∈ collectMap l) : q ∈ l := by
  unfold collectMap at h
  rcases mem_foldl_insert l [] q h with h' | h'
  · cases h'
  · exact h'

theorem foldl_insert_eq_append {α β : Type} [DecidableEq α] (l : List (α × β)) :
    ∀ m : List (α × β), nodupKeys l → (∀ p ∈ l, containsKey m p.1 = false) →
      l.foldl (fun acc p => hashMapInsert acc p.1 p.2) m = m ++ l := by
  induction l with
  | nil => simp
  | cons p rest ih =>
      intro m hl hdisj
      have hstep : hashMapInsert m p.1 p.2 = m ++ [p] := by
        unfold hashMapInsert
        rw [if_neg (by simp [hdisj p (List.mem_cons_self p rest)])]
      rw [List.foldl_cons, hstep, ih (m ++ [p])]
      · simp
      · exact (List.nodup_cons.1 (by simpa [nodupKeys] using hl)).2
      · intro q hq
        rw [containsKey_eq_false_iff]
        intro r hr
        rcases List.mem_append.1 hr with hr' | hr'
        · exact (containsKey_eq_false_iff m q.1).1
            (hdisj q (List.mem_cons.2 (Or.inr hq))) r hr'
        · have hrp : r = p := by simpa using hr'
          have hkey : p.1 ∉ rest.map Prod.fst :=
            (List.nodup_cons.1 (by simpa [nodupKeys] using hl)).1
          intro hcontra
          apply hkey
          rw [← hrp, hcontra]
          exact List.mem_map_of_mem Prod.fst hq

theorem collectMap_eq_self {α β : Type} [DecidableEq α] (l : List (α × β))
    (h : nodupKeys l) : collectMap l = l := by
  unfold collectMap
  rw [foldl_insert_eq_append l [] h (fun p _ => rfl)]
  simp

theorem lookupMap_some_mem {α β : Type} [DecidableEq α] {m : List (α × β)} {k : α}
    {v : β} (h : lookupMap m k = some v) : (k, v) ∈ m := by
  induction m with
  | nil => simp [lookupMap] at h
  | cons p rest ih =>
      by_cases hp : p.1 = k
      · simp only [lookupMap, hp, if_true] at h
        subst hp
        injection h with h
        subst h
        exact List.mem_cons_self p rest
      · simp only [lookupMap, hp, if_false] at h
        exact List.mem_cons.2 (Or.inr (ih h))

/-! ### Characterization of the extractor's entry list -/

/-- The list of `(address, account)` pairs the extractor builds before
collecting them into a map. -/
theorem processEntry_char {E : ExternalFns} {prestate : State} {storage : Storage}
    {p : Address × Account}
    (hp : p ∈ ((storage.modified_storage_keys.map Prod.fst).filter
        (fun k => !(containsKey prestate k.account.address))).map
      (fun k => (k.account.address, newAccountFor E storage k.account))) :
    p.2 = newAccountFor E storage (AccountTreeId.new p.1) ∧
      containsKey prestate p.1 = false ∧
      ∃ k ∈ storage.modified_storage_keys.map Prod.fst, k.account.address = p.1 := by
  rcases List.mem_map.1 hp with ⟨k, hk, hkp⟩
  rcases List.mem_filter.1 hk with ⟨hkmem, hkpred⟩
  rcases k with ⟨⟨addr⟩, slot⟩
  rcases p with ⟨A, acc⟩
  injection hkp with h1 h2
  subst h1
  subst h2
  refine ⟨rfl, ?_, ⟨⟨⟨addr⟩, slot⟩, hkmem, rfl⟩⟩
  simpa using hkpred

/-! ### Concrete fixtures used by the example theorems -/

/-- A concrete external-function bundle: a trivial hash and distinct
per-address code/nonce keys. -/
def Efix : ExternalFns :=
  ⟨fun _ => 0, fun a => StorageKey.new ⟨2⟩ a, fun a => StorageKey.new ⟨3⟩ a⟩

/-- A concrete storage fixture: one modified slot `7 ↦ 9` owned by address
`5`; every read yields `3`. -/
def stFix : Storage :=
  { modified_storage_keys := [(StorageKey.new ⟨5⟩ 7, 9)], read_value := fun _ => 3 }

/-! ### Claims about the extractor -/

/-- C5: if the storage's modified-key set is empty then
`process_modified_storage_keys` returns an empty mapping, whatever the
prestate contains. -/
theorem process_empty_modified_keys (E : ExternalFns) (prestate : State)
    (storage : Storage) (h : storage.modified_storage_keys = []) :
    process_modified_storage_keys E prestate storage = [] := by
  unfold process_modified_storage_keys
  rw [h]
  rfl

theorem process_empty_modified_keys_witness :
    ({ modified_storage_keys := [], read_value := fun _ => 0 } : Storage).modified_storage_keys
        = [] ∧
    process_modified_storage_keys Efix [(5, ⟨none, none, none, none⟩)]
      { modified_storage_keys := [], read_value := fun _ => 0 } = [] :=
  ⟨rfl, process_empty_modified_keys Efix [(5, ⟨none, none, none, none⟩)] _ rfl⟩

/-- C3: an address that is already a key of the prestate map never appears
in the result of `process_modified_storage_keys`, even when modified keys
are owned by it. -/
theorem process_preexisting_excluded (E : ExternalFns) (prestate : State)
    (storage : Storage) (A : Address) (h : containsKey prestate A = true) :
    lookupMap (process_modified_storage_keys E prestate storage) A = none := by
  unfold process_modified_storage_keys
  rw [lookupMap_collectMap, lookupMap_eq_none_iff]
  intro p hp
  rw [List.mem_reverse] at hp
  have hchar := processEntry_char (E := E) hp
  intro hpA
  have hfalse := hchar.2.1
  rw [hpA, h] at hfalse
  cases hfalse

theorem process_preexisting_excluded_witness :
    containsKey [(5, (⟨none, none, none, none⟩ : Account))] 5 = true ∧
    lookupMap
      (process_modified_storage_keys Efix [(5, ⟨none, none, none, none⟩)] stFix) 5 = none :=
  ⟨rfl, process_preexisting_excluded Efix [(5, ⟨none, none, none, none⟩)] stFix 5 rfl⟩

/-- C1: an address that owns at least one modified key and is absent from
the prestate gets exactly one entry in the result, whose `balance`, `code`
and `nonce` are the values read back from the post-execution storage view
at the three derived keys (whether or not those keys are themselves in the
modified set). -/
theorem process_new_address_inclusion (E : ExternalFns) (prestate : State)
    (storage : Storage) (A : Address)
    (hown : ∃ k ∈ storage.modified_storage_keys.map Prod.fst, k.account.address = A)
    (hnew : containsKey prestate A = false) :
    ((process_modified_storage_keys E prestate storage).map Prod.fst).count A = 1 ∧
    lookupMap (process_modified_storage_keys E prestate storage) A =
      some
        { balance := some (h256_to_u256
            (storage.read_value (get_balance_key E (AccountTreeId.new A))))
          code := some (h256_to_u256 (storage.read_value (E.get_code_key A)))
          nonce := some (h256_to_u256 (storage.read_value (E.get_nonce_key A)))
          storage := some (get_storage_if_present (AccountTreeId.new A)
            storage.modified_storage_keys) } := by
  have hlk : lookupMap (process_modified_storage_keys E prestate storage) A =
      some (newAccountFor E storage (AccountTreeId.new A)) := by
    unfold process_modified_storage_keys
    rw [lookupMap_collectMap]
    apply lookupMap_eq_some_of
    · intro p hp hpA
      rw [List.mem_reverse] at hp
      have hchar := processEntry_char hp
      rw [hchar.1, hpA]
    · rcases hown with ⟨k, hk, hkA⟩
      refine ⟨(k.account.address, newAccountFor E storage k.account), ?_, hkA⟩
      rw [List.mem_reverse]
      exact List.mem_map.2 ⟨k, List.mem_filter.2 ⟨hk, by simp [hkA, hnew]⟩, rfl⟩
  constructor
  · have hnd : nodupKeys (process_modified_storage_keys E prestate storage) := by
      unfold process_modified_storage_keys
      exact nodupKeys_collectMap _
    unfold nodupKeys at hnd
    exact List.count_eq_one_of_mem hnd
      (List.mem_map_of_mem Prod.fst (lookupMap_some_mem hlk))
  · exact hlk

theorem process_new_address_inclusion_witness :
    (∃ k ∈ stFix.modified_storage_keys.map Prod.fst, k.account.address = 5) ∧
    containsKey ([] : State) 5 = false ∧
    ((process_modified_storage_keys Efix [] stFix).map Prod.fst).count 5 = 1 ∧
    lookupMap (process_modified_storage_keys Efix [] stFix) 5 =
      some
        { balance := some (h256_to_u256
            (stFix.read_value (get_balance_key Efix (AccountTreeId.new 5))))
          code := some (h256_to_u256 (stFix.read_value (Efix.get_code_key 5)))
          nonce := some (h256_to_u256 (stFix.read_value (Efix.get_nonce_key 5)))
          storage := some (get_storage_if_present (AccountTreeId.new 5)
            stFix.modified_storage_keys) } := by
  have hown : ∃ k ∈ stFix.modified_storage_keys.map Prod.fst, k.account.address = 5 :=
    ⟨StorageKey.new ⟨5⟩ 7, by simp [stFix], rfl⟩
  have h := process_new_address_inclusion Efix [] stFix 5 hown rfl
  exact ⟨hown, rfl, h.1, h.2⟩

theorem hashMapInsert_ne_nil {α β : Type} [DecidableEq α] (m : List (α × β))
    (k : α) (v : β) : hashMapInsert m k v ≠ [] := by
  unfold hashMapInsert
  by_cases hc : containsKey m k = true
  · rw [if_pos hc]
    cases m with
    | nil => simp [containsKey] at hc
    | cons p rest => simp
  · rw [if_neg hc]
    simp

theorem foldl_insert_ne_nil {α β : Type} [DecidableEq α] (l : List (α × β))
    (h : l ≠ []) :
    ∀ m : List (α × β), l.foldl (fun acc p => hashMapInsert acc p.1 p.2) m ≠ [] := by
  induction l with
  | nil => exact absurd rfl h
  | cons p rest ih =>
      intro m
      cases rest with
      | nil => simpa using hashMapInsert_ne_nil m p.1 p.2
      | cons q rest' => exact ih (by simp) (hashMapInsert m p.1 p.2)

theorem collectMap_ne_nil {α β : Type} [DecidableEq α] {l : List (α × β)}
    (h : l ≠ []) : collectMap l ≠ [] := by
  unfold collectMap
  exact foldl_insert_ne_nil l h []

/-- C2: for every address present in the result, its `storage` field holds
exactly the `(slot, value)` pairs of the modified-key set owned by that
address — each such slot with its final value, and nothing owned by any
other account. -/
theorem process_storage_grouping (E : ExternalFns) (prestate : State)
    (storage : Storage) (A : Address) (acc : Account)
    (hnd : nodupKeys storage.modified_storage_keys)
    (hlk : lookupMap (process_modified_storage_keys E prestate storage) A = some acc) :
    ∃ s, acc.storage = some s ∧ (s.map Prod.fst).Nodup ∧
      ∀ slot v, (slot, v) ∈ s ↔
        (StorageKey.new (AccountTreeId.new A) slot, v) ∈ storage.modified_storage_keys := by
  have hacc : acc = newAccountFor E storage (AccountTreeId.new A) := by
    unfold process_modified_storage_keys at hlk
    rw [lookupMap_collectMap] at hlk
    have hmem := lookupMap_some_mem hlk
    rw [List.mem_reverse] at hmem
    exact (processEntry_char hmem).1
  have hfsub : ((storage.modified_storage_keys.filter
        (fun p => decide (p.1.account = AccountTreeId.new A))).map Prod.fst).Nodup :=
    List.Nodup.sublist ((List.filter_sublist _).map Prod.fst) hnd
  have hgnd : nodupKeys ((storage.modified_storage_keys.filter
        (fun p => decide (p.1.account = AccountTreeId.new A))).map
      (fun p => (p.1.key, p.2))) := by
    unfold nodupKeys
    rw [List.map_map]
    have heq : ((fun q : H256 × H256 => q.1) ∘ fun p : StorageKey × StorageValue =>
        (p.1.key, p.2)) = fun p : StorageKey × StorageValue => p.1.key := rfl
    rw [heq]
    have heq2 : (storage.modified_storage_keys.filter
          (fun p => decide (p.1.account = AccountTreeId.new A))).map
        (fun p : StorageKey × StorageValue => p.1.key) =
        ((storage.modified_storage_keys.filter
          (fun p => decide (p.1.account = AccountTreeId.new A))).map Prod.fst).map
        StorageKey.key := by
      rw [List.map_map]
      rfl
    rw [heq2]
    apply List.Nodup.map_on ?_ hfsub
    intro x hx y hy hxy
    rcases List.mem_map.1 hx with ⟨p, hp, rfl⟩
    rcases List.mem_map.1 hy with ⟨q, hq, rfl⟩
    have hpa : p.1.account = AccountTreeId.new A := by
      simpa using (List.mem_filter.1 hp).2
    have hqa : q.1.account = AccountTreeId.new A := by
      simpa using (List.mem_filter.1 hq).2
    have : (⟨p.1.account, p.1.key⟩ : StorageKey) = ⟨q.1.account, q.1.key⟩ := by
      rw [hpa, hqa, hxy]
    exact this
  have hgroup : get_storage_if_present (AccountTreeId.new A) storage.modified_storage_keys =
      (storage.modified_storage_keys.filter
        (fun p => decide (p.1.account = AccountTreeId.new A))).map
      (fun p => (p.1.key, p.2)) := by
    unfold get_storage_if_present
    exact collectMap_eq_self _ hgnd
  refine ⟨get_storage_if_present (AccountTreeId.new A) storage.modified_storage_keys,
    by rw [hacc]; rfl, ?_, ?_⟩
  · rw [hgroup]
    exact hgnd
  · intro slot v
    rw [hgroup]
    constructor
    · intro hmem
      rcases List.mem_map.1 hmem with ⟨⟨⟨⟨pa⟩, pk⟩, pv⟩, hp, hpe⟩
      rcases List.mem_filter.1 hp with ⟨hpm, hppred⟩
      have hpa : pa = A := by simpa [AccountTreeId.new] using hppred
      injection hpe with he1 he2
      subst hpa
      subst he1
      subst he2
      exact hpm
    · intro hmem
      exact List.mem_map.2 ⟨(StorageKey.new (AccountTreeId.new A) slot, v),
        List.mem_filter.2 ⟨hmem, by simp [StorageKey.new]⟩, rfl⟩

theorem process_storage_grouping_witness :
    nodupKeys stFix.modified_storage_keys ∧
    lookupMap (process_modified_storage_keys Efix [] stFix) 5 =
      some (newAccountFor Efix stFix (AccountTreeId.new 5)) ∧
    ∃ s, (newAccountFor Efix stFix (AccountTreeId.new 5)).storage = some s ∧
      (s.map Prod.fst).Nodup ∧
      ∀ slot v, (slot, v) ∈ s ↔
        (StorageKey.new (AccountTreeId.new 5) slot, v) ∈ stFix.modified_storage_keys := by
  have hnd : nodupKeys stFix.modified_storage_keys := by
    simp [nodupKeys, stFix]
  have hlk : lookupMap (process_modified_storage_keys Efix [] stFix) 5 =
      some (newAccountFor Efix stFix (AccountTreeId.new 5)) := by rfl
  exact ⟨hnd, hlk, process_storage_grouping Efix [] stFix 5 _ hnd hlk⟩

/-- C10: every account in the result has all four fields populated, and its
storage map is non-empty. -/
theorem process_account_fields_populated (E : ExternalFns) (prestate : State)
    (storage : Storage) (A : Address) (acc : Account)
    (hmem : (A, acc) ∈ process_modified_storage_keys E prestate storage) :
    ∃ b c n s, acc =
      { balance := some b, code := some c, nonce := some n, storage := some s } ∧
      s ≠ [] := by
  unfold process_modified_storage_keys at hmem
  have hchar := processEntry_char (mem_collectMap hmem)
  refine ⟨h256_to_u256 (storage.read_value (get_balance_key E (AccountTreeId.new A))),
    h256_to_u256 (storage.read_value (E.get_code_key A)),
    h256_to_u256 (storage.read_value (E.get_nonce_key A)),
    get_storage_if_present (AccountTreeId.new A) storage.modified_storage_keys,
    hchar.1, ?_⟩
  rcases hchar.2.2 with ⟨k, hk, hkA⟩
  rcases List.mem_map.1 hk with ⟨p, hpm, hpk⟩
  have hka : k.account = AccountTreeId.new A := by
    rcases k with ⟨⟨addr⟩, slot⟩
    simp only [AccountTreeId.new]
    simp only at hkA
    rw [hkA]
  have hmem2 : (p.1.key, p.2) ∈ (storage.modified_storage_keys.filter
      (fun q => decide (q.1.account = AccountTreeId.new A))).map
      (fun q => (q.1.key, q.2)) :=
    List.mem_map.2 ⟨p, List.mem_filter.2 ⟨hpm, by simp [hpk, hka]⟩, rfl⟩
  unfold get_storage_if_present
  exact collectMap_ne_nil (List.ne_nil_of_mem hmem2)

theorem process_account_fields_populated_witness :
    ((5 : Address), newAccountFor Efix stFix (AccountTreeId.new 5)) ∈
      process_modified_storage_keys Efix [] stFix ∧
    ∃ b c n s, newAccountFor Efix stFix (AccountTreeId.new 5) =
      { balance := some b, code := some c, nonce := some n, storage := some s } ∧
      s ≠ [] := by
  have hmem : ((5 : Address), newAccountFor Efix stFix (AccountTreeId.new 5)) ∈
      process_modified_storage_keys Efix [] stFix := by
    rw [show process_modified_storage_keys Efix [] stFix =
      [(5, newAccountFor Efix stFix (AccountTreeId.new 5))] from rfl]
    exact List.mem_cons_self _ _
  exact ⟨hmem, process_account_fields_populated Efix [] stFix 5 _ hmem⟩

/-! ### Claims about the textual rendering -/

/-- C7: the rendering emits exactly the populated fields, in the fixed
order balance, code, nonce, storage, and contributes nothing at all for an
absent field. -/
theorem account_display_fields (a : Account) :
    accountDisplay a =
      "\x7b\n" ++ balancePart a.balance ++ codePart a.code ++ noncePart a.nonce
        ++ storagePart a.storage ++ "\x7d\n" ∧
    balancePart none = "" ∧ codePart none = "" ∧ noncePart none = "" ∧
    storagePart none = "" := by
  refine ⟨?_, rfl, rfl, rfl, rfl⟩
  rcases a with ⟨b, c, n, s⟩
  cases b <;> cases c <;> cases n <;> cases s <;> rfl

/-- C6 counterexample: an account whose only populated 256-bit integer
field is `nonce = 255` renders that field in decimal (`nonce: 255,`); the
rendering contains no `0x` prefix anywhere, so the populated `nonce` field
is not rendered hex-encoded with a `0x` prefix. -/
theorem account_render_nonce_not_hex :
    accountDisplay { balance := none, code := none, nonce := some 255, storage := none } =
      "\x7b\n  nonce: 255,\n\x7d\n" ∧
    containsSub ("\x7b\n  nonce: 255,\n\x7d\n").toList "0x".toList = false := by
  exact ⟨rfl, by decide⟩

/-- C6 (amended): of the populated 256-bit integer fields, `balance` is
rendered hex-encoded with a `0x` prefix, while `code` is rendered as a
quoted decimal integer and `nonce` as an unquoted decimal integer. -/
theorem account_render_numeric_fields (b c n : U256) :
    accountDisplay { balance := some b, code := some c, nonce := some n, storage := none } =
      "\x7b\n" ++ ("  balance: \"0x" ++ u256LowerHex b ++ "\",\n")
        ++ ("  code: \"" ++ u256Display c ++ "\",\n")
        ++ ("  nonce: " ++ u256Display n ++ ",\n") ++ "" ++ "\x7d\n" ∧
    u256LowerHex 255 = "ff" ∧ u256Display 255 = "255" := by
  exact ⟨rfl, rfl, rfl⟩

/-- C9: rendering is a pure function of the `Account` value in this
embedding, so rendering the same value twice yields identical text. -/
theorem account_display_idempotent (a : Account) :
    accountDisplay a = accountDisplay a := rfl

/-! ### Claim about the balance-key derivation -/

/-- Definition following the spec's words for the balance key: the storage
key owned by the fixed system ledger address whose slot is the Keccak-256
hash of the address as a left-padded 256-bit value followed by 32 zero
bytes. -/
def specBalanceKey (E : ExternalFns) (A : Address) : StorageKey :=
  { account := { address := L2_ETH_TOKEN_ADDRESS }
    key := E.keccak256 (h256ToBytes (address_to_h256 A) ++ List.replicate 32 0) }

/-- C4: `get_balance_key` produces exactly the key the spec describes, and
the hashed byte string is 64 bytes long (32 address bytes plus 32 zero
bytes). -/
theorem get_balance_key_matches_spec (E : ExternalFns) (A : Address) :
    get_balance_key E (AccountTreeId.new A) = specBalanceKey E A ∧
    (h256ToBytes (address_to_h256 A) ++ List.replicate 32 0).length = 64 := by
  refine ⟨rfl, ?_⟩
  simp [h256ToBytes]

/-! ### Claim about the write-once result holder -/

/-- C8: the result holder is single-assignment: a fresh cell reads as "not
yet available"; the first write is accepted and becomes observable; a
second write is rejected and the originally stored value remains observable
unchanged. -/
theorem once_cell_write_once (α : Type) (v w : α) :
    (OnceCell.new : OnceCell α).get = none ∧
    ((OnceCell.new : OnceCell α).trySet v).2 = true ∧
    ((OnceCell.new : OnceCell α).trySet v).1.get = some v ∧
    (((OnceCell.new : OnceCell α).trySet v).1.trySet w).2 = false ∧
    (((OnceCell.new : OnceCell α).trySet v).1.trySet w).1.get = some v := by
  exact ⟨rfl, rfl, rfl, rfl, rfl⟩
